import Mathlib

/-!
Shallow embedding of the core of the daum-cafe archiver
(src/cookies.rs and src/downloader.rs).

Modelling conventions:
* a Rust `&str` / `String` is a `List Char` (`Str` below); byte-indexed
  operations carry explicit UTF-8 sizes via `Char.utf8Size`;
* `HashMap<String, String>` is an association list in iteration order,
  with `collectHashMap` giving the insert-overwrites semantics of
  `collect::<HashMap<_, _>>()`;
* network and filesystem effects are inputs/outputs of the pure
  functions that the Rust code wraps around them.
-/

namespace DaumCafe

/-- Rust string, modelled as its list of unicode scalar values. -/
abbrev Str := List Char

/-- UTF-8 byte length of a string (Rust `str::len`). -/
def utf8Len (s : Str) : Nat := (s.map Char.utf8Size).sum

/-- Rust `str::trim`: drop whitespace from both ends. -/
def trimChars (s : Str) : Str :=
  ((s.dropWhile Char.isWhitespace).reverse.dropWhile Char.isWhitespace).reverse

/-- Rust format fragment of width 3 with zero padding, as used for the
`img` / `attach` indices in `download_post`. -/
def pad3 (n : Nat) : Str :=
  if n < 10 then '0' :: '0' :: (Nat.repr n).toList
  else if n < 100 then '0' :: (Nat.repr n).toList
  else (Nat.repr n).toList

/-- Rust format fragment of width 4 with zero padding, as used for the
post id in the archive-entry prefix in `download_board`. -/
def pad4 (n : Nat) : Str :=
  if n < 10 then '0' :: '0' :: '0' :: (Nat.repr n).toList
  else if n < 100 then '0' :: '0' :: (Nat.repr n).toList
  else if n < 1000 then '0' :: (Nat.repr n).toList
  else (Nat.repr n).toList

/-- A credential: the `HashMap<String, String>` of cookie names to values
from src/cookies.rs, modelled as an association list in iteration order. -/
abbrev Credential := List (Str × Str)

/-- Insertion into the association-list model of `HashMap`: replace the
value in place when the key is present, otherwise append the pair. -/
def hashMapInsert (m : Credential) (kv : Str × Str) : Credential :=
  if m.any (fun q => q.1 == kv.1) then
    m.map (fun q => if q.1 == kv.1 then (q.1, kv.2) else q)
  else m ++ [kv]

/-- Rust `collect::<HashMap<_, _>>()` on a sequence of pairs: a later pair
with an already-seen key overwrites the earlier value. -/
def collectHashMap (l : List (Str × Str)) : Credential :=
  l.foldl hashMapInsert []

/-- `serialize_cookies` (src/cookies.rs, lines 176-183): render the map
entries as `name=value` and join them with the separator `"; "`. -/
def serialize_cookies (map : Credential) : Str :=
  List.intercalate ("; ".toList) (map.map (fun kv => kv.1 ++ '=' :: kv.2))

/-- One element of `deserialize_cookies` (src/cookies.rs, lines 188-193):
Rust `s.split('=')` with the first piece as the name and the second piece
as the value (a piece with no `=` at all is dropped), both trimmed. -/
def parseCookiePair (s : Str) : Option (Str × Str) :=
  match s.splitOn '=' with
  | n :: v :: _ => some (trimChars n, trimChars v)
  | _ => none

/-- `deserialize_cookies` (src/cookies.rs, lines 185-195): split the cookie
string on `;`, parse each piece as `name=value`, collect into a `HashMap`. -/
def deserialize_cookies (cookies : Str) : Credential :=
  collectHashMap ((cookies.splitOn ';').filterMap parseCookiePair)

/-- The `Set-Cookie` header parse inside `update_kakao_coookies`
(src/cookies.rs, lines 146-151): split the header value on `;`, use the
whole first piece as the map key and the second piece (or the empty string
when there is none) as the map value. -/
def parseSetCookieHeader (v : Str) : Option (Str × Str) :=
  match v.splitOn ';' with
  | [] => none
  | [n] => some (n, [])
  | n :: val :: _ => some (n, val)

/-- The merge-loop body of `update_kakao_coookies` (src/cookies.rs, lines
155-163): when the key is already present in the credential, remove the
pair if the incoming value is empty and replace the value otherwise; keys
that are not present are ignored. -/
def mergeCookie (m : Credential) (kv : Str × Str) : Credential :=
  if m.any (fun q => q.1 == kv.1) then
    if kv.2 = [] then m.filter (fun q => q.1 != kv.1)
    else m.map (fun q => if q.1 == kv.1 then (q.1, kv.2) else q)
  else m

/-- `update_kakao_coookies` (src/cookies.rs, lines 127-173), with the
response's `Set-Cookie` header values as input (the account-info network
call and the cache-file write are external effects): parse every header,
collect the pairs into a map, and fold the merge loop over a copy of the
original credential. -/
def update_kakao_coookies (kakao_cookies : Credential) (headers : List Str) : Credential :=
  (collectHashMap (headers.filterMap parseSetCookieHeader)).foldl mergeCookie kakao_cookies

/-- The `Set-Cookie` parse as the specification describes the refresh merge
(spec section 4.2 step 3, claim C1): the cookie name is the part of the
first `;`-piece before the first `=` and the cookie value the part after
it.  Stated only for comparison with `update_kakao_coookies`. -/
def parseSetCookieSpec (v : Str) : Option (Str × Str) :=
  match v.splitOn ';' with
  | seg :: _ =>
    match seg.splitOn '=' with
    | n :: val :: _ => some (n, val)
    | _ => none
  | [] => none

/-- The refresh merge as the specification states it (claim C1): identical
to `update_kakao_coookies` except that the headers are parsed into actual
cookie name/value pairs. -/
def refreshMergeSpec (kakao_cookies : Credential) (headers : List Str) : Credential :=
  (collectHashMap (headers.filterMap parseSetCookieSpec)).foldl mergeCookie kakao_cookies

/-- Outcome of the `exceptionCode` check in `download_board`
(src/downloader.rs, lines 151-160). -/
inductive FetchOutcome where
  | notAuthenticated : FetchOutcome
  | softMiss : FetchOutcome
  | apiError (code : Str) : FetchOutcome
  | success : FetchOutcome
  deriving DecidableEq

/-- The response check in `download_board` (src/downloader.rs, lines
151-160): a body without `exceptionCode` proceeds as a success; the fixed
not-authenticated code aborts the whole run; the fixed deleted code skips
the id; any other code becomes an API error carrying the code. -/
def classifyException (exception : Option Str) : FetchOutcome :=
  match exception with
  | none => .success
  | some e =>
    if e = "MCAFE_NOT_AUTHENTICATED".toList then .notAuthenticated
    else if e = "MCAFE_BBS_BULLETIN_READ_DELALREADY".toList then .softMiss
    else .apiError e

/-- One row's worth of fields of a Netscape-format cookie jar
(domain, flag, path, secure, expiry, name, value). -/
structure NetscapeRow where
  domain : Str
  flag : Str
  path : Str
  secure : Str
  expiry : Str
  name : Str
  value : Str

/-- Tab-join the seven fields of a row back into its file line. -/
def renderRow (r : NetscapeRow) : Str :=
  List.intercalate ['\t'] [r.domain, r.flag, r.path, r.secure, r.expiry, r.name, r.value]

/-- A field the cookie-file regex can have produced: nonempty (each field
pattern requires at least one character) and free of tabs and newlines. -/
def wfField (f : Str) : Prop := f ≠ [] ∧ '\t' ∉ f ∧ '\n' ∉ f

/-- All seven fields of a row are well formed. -/
def wfRow (r : NetscapeRow) : Prop :=
  wfField r.domain ∧ wfField r.flag ∧ wfField r.path ∧ wfField r.secure ∧
    wfField r.expiry ∧ wfField r.name ∧ wfField r.value

instance instDecidableWfField (f : Str) : Decidable (wfField f) := by
  unfold wfField
  infer_instance

instance instDecidableWfRow (r : NetscapeRow) : Decidable (wfRow r) := by
  unfold wfRow
  infer_instance

/-- The per-line action of the regex in `read_cookies_file`
(src/cookies.rs, lines 76-79) on a line with the seven tab-separated
fields of a Netscape cookie row: the line matches exactly when the domain
field is literally `.kakao.com` (the pattern is anchored at the line start
and the dots are escaped) and every field is nonempty; a match captures
the name and value fields. -/
def cookieLineMatch (line : Str) : Option (Str × Str) :=
  match line.splitOn '\t' with
  | [domain, f2, f3, f4, f5, name, value] =>
    if domain = ".kakao.com".toList ∧ f2 ≠ [] ∧ f3 ≠ [] ∧ f4 ≠ [] ∧
        f5 ≠ [] ∧ name ≠ [] ∧ value ≠ []
    then some (name, value) else none
  | _ => none

/-- `read_cookies_file` (src/cookies.rs, lines 74-99) on the raw cookie-jar
text (the cache-file shortcut at lines 82-84 bypasses this parse and is an
external effect): run the row regex over every line in order and join the
captured pairs as `name=value` with `"; "`. -/
def read_cookies_file (cookies_contents : Str) : Str :=
  List.intercalate ("; ".toList)
    (((cookies_contents.splitOn '\n').filterMap cookieLineMatch).map
      (fun kv => kv.1 ++ '=' :: kv.2))

/-- One attachment record of the post body (struct `CafeFile`,
src/downloader.rs, lines 77-81). -/
structure CafeFile where
  downurl : Str
  filetype : Str
  deriving DecidableEq

/-- The `get_url_basename` closure in `download_post` (src/downloader.rs,
lines 285-286): the last `/`-separated piece of the URL (`split`) always
yields at least one piece, so the Rust `unwrap` cannot fail and is modelled
by a default). -/
def get_url_basename (u : Str) : Str := (u.splitOn '/').getLastD []

/-- Rust `Iterator::position`: index of the first element satisfying the
predicate. -/
def position (p : α → Bool) : List α → Option Nat
  | [] => none
  | x :: xs => if p x then some 0 else (position p xs).map (· + 1)

/-- The `real_idx` computation in `download_post` (src/downloader.rs, lines
291-296): position of the first image-list entry whose URL basename equals
the file's URL basename. -/
def fileRealIdx (image_list : Option (List Str)) (f : CafeFile) : Option Nat :=
  match image_list with
  | some il => position (fun u => get_url_basename u == get_url_basename f.downurl) il
  | none => none

/-- The `_img` filename format in `download_post` (src/downloader.rs,
lines 297-303). -/
def imgFilename (pfx : Str) (rank : Nat) (ft : Str) : Str :=
  pfx ++ "_img".toList ++ pad3 rank ++ '.' :: ft

/-- The `_attach` filename format in `download_post` (src/downloader.rs,
lines 304-312). -/
def attachFilename (pfx : Str) (idx : Nat) (ft : Str) : Str :=
  pfx ++ "_attach".toList ++ pad3 idx ++ '.' :: ft

/-- Whether a file gets an attachment name (its basename matches no
image-list entry). -/
def isAttachFile (image_list : Option (List Str)) (f : CafeFile) : Bool :=
  (fileRealIdx image_list f).isNone

/-- The filename-assignment loop of `download_post` (src/downloader.rs,
lines 289-312), carrying the mutable `attach_idx` counter: a file whose
basename occurs in the image list at (0-based) position `idx` is named
`…_img{idx+1:03}.{filetype}`, any other file increments the counter and is
named `…_attach{counter:03}.{filetype}`. -/
def assignFilenamesAux (image_list : Option (List Str)) (pfx : Str) (attach_idx : Nat) :
    List CafeFile → List Str
  | [] => []
  | f :: rest =>
    match fileRealIdx image_list f with
    | some idx =>
      imgFilename pfx (idx + 1) f.filetype :: assignFilenamesAux image_list pfx attach_idx rest
    | none =>
      attachFilename pfx (attach_idx + 1) f.filetype ::
        assignFilenamesAux image_list pfx (attach_idx + 1) rest

/-- Filename assignment for the whole `addfile` list (the counter starts
at 0 and is pre-incremented, so attachment indices start at 1). -/
def assignFilenames (image_list : Option (List Str)) (pfx : Str) (files : List CafeFile) :
    List Str :=
  assignFilenamesAux image_list pfx 0 files

/-- The pre-dispatch task list of the asset batch in `download_post`: the
filename (computed by the sequential stream-production closure) paired with
the download URL, in `addfile` order. -/
def assetTasks (image_list : Option (List Str)) (pfx : Str) (files : List CafeFile) :
    List (Str × Str) :=
  (assignFilenames image_list pfx files).zip (files.map (fun f => f.downurl))

/-- An execution of the `buffer_unordered` asset batch: `order` is the
completion order of the dispatched downloads (a permutation of the task
indices); each completed download stores its asset under the filename its
task was given at dispatch.  The result lists (task index, filename) in
completion order. -/
def runBatch (tasks : List (Str × Str)) (order : List Nat) : List (Nat × Str) :=
  order.filterMap (fun i => (tasks[i]?).map (fun t => (i, t.1)))

/-- Rust `str::parse::<usize>` on digits (an optional leading `+` sign is
accepted; the model uses unbounded `Nat`, overflow aside). -/
def parseDigits (s : Str) : Option Nat :=
  if s ≠ [] ∧ s.all Char.isDigit
  then some (s.foldl (fun a c => a * 10 + (c.toNat - '0'.toNat)) 0)
  else none

/-- Rust `str::parse::<usize>`. -/
def parseUsize (s : Str) : Option Nat :=
  match s with
  | '+' :: rest => parseDigits rest
  | _ => parseDigits s

/-- The per-entry extraction in `get_first_id` (src/downloader.rs, lines
199-208): split the entry name on `_`, take the field at index 3, parse it
as a `usize`; any failure drops the entry. -/
def extractEntryId (entry : Str) : Option Nat :=
  ((entry.splitOn '_')[3]?).bind parseUsize

/-- `get_first_id` (src/downloader.rs, lines 191-215): `none` models an
absent/unreadable directory, `some entries` the list of entry names.  The
maximum of the extracted ids (`unwrap_or(0)` when none parse) plus one. -/
def get_first_id (dir : Option (List Str)) : Nat :=
  match dir with
  | none => 1
  | some entries => ((entries.filterMap extractEntryId).max?.getD 0) + 1

/-- The byte-truncation loop of `truncate_str_to_length`
(src/downloader.rs, lines 244-251): `output` accumulates grapheme clusters
while the UTF-8 byte length (`String::len`) stays within `max_length`. -/
def truncAux (max_length : Nat) : Str → List Str → Str
  | output, [] => output
  | output, g :: rest =>
    if max_length < utf8Len output + utf8Len g then output
    else truncAux max_length (output ++ g) rest

/-- `truncate_str_to_length` (src/downloader.rs, lines 239-253).  The
grapheme segmentation of the input is performed by the external
unicode-segmentation crate, so the function takes the input already
segmented into grapheme clusters (the input string is their
concatenation). -/
def truncate_str_to_length (graphemes : List Str) (max_length : Nat) : Str :=
  truncAux max_length [] graphemes

/-- Rust byte slicing `&s[..n]` on a UTF-8 string: defined (`some`) exactly
when the string has a character boundary at byte `n`, in which case it is
the list of characters occupying the first `n` bytes; `none` models the
out-of-range / non-boundary panic. -/
def takeBytes : Nat → Str → Option Str
  | 0, _ => some []
  | _ + 1, [] => none
  | n + 1, c :: cs =>
    if c.utf8Size ≤ n + 1 then (takeBytes (n + 1 - c.utf8Size) cs).map (fun t => c :: t)
    else none

/-- The archive-entry prefix built in `download_board` (src/downloader.rs,
lines 173-180): `{date[..8]}_{cafe_name}_{cafe_board}_{id:04}_{title}`,
where the title is the 100-byte grapheme truncation of the post name.
`none` models the panic of the byte slice `&date[..8]`.  The
`sanitize_filename::sanitize` call applied on top is an external crate and
does not affect definedness. -/
def buildEntryPrefix (date : Str) (nameGraphemes : List Str) (cafe_name cafe_board : Str)
    (id : Nat) : Option Str :=
  (takeBytes 8 date).map (fun d8 =>
    d8 ++ '_' :: cafe_name ++ '_' :: cafe_board ++ '_' :: pad4 id ++ '_' ::
      truncate_str_to_length nameGraphemes 100)

/-- The fixed paths of one `download_post` publish: the scratch directory
`scratchRoot/tmpname` created by `tempfile::tempdir`, and the final
location `parent/prefixName` (src/downloader.rs, lines 282-339). -/
structure PublishCtx where
  scratchRoot : List Str
  tmpname : Str
  parent : List Str
  prefixName : Str

/-- The scratch directory path. -/
def scratchDir (ctx : PublishCtx) : List Str := ctx.scratchRoot ++ [ctx.tmpname]

/-- The path the copy step creates inside the destination's parent. -/
def stagedPath (ctx : PublishCtx) : List Str := ctx.parent ++ [ctx.tmpname]

/-- The final archive-entry path. -/
def finalPath (ctx : PublishCtx) : List Str := ctx.parent ++ [ctx.prefixName]

/-- The filesystem-visible steps of `download_post` (src/downloader.rs,
lines 288-339), in program order: the asset downloads into the scratch
directory, the body-text write, the `fs_extra::dir::copy` of the scratch
directory into the destination's parent, and the final `fs::rename`. -/
inductive PubOp where
  | downloadAsset (filename : Str) : PubOp
  | writeBody : PubOp
  | copyToParent : PubOp
  | renameFinal : PubOp

/-- Effect of one successful step on the filesystem (a list of existing
paths, each a list of components). -/
def applyPubOp (ctx : PublishCtx) (fs : List (List Str)) : PubOp → List (List Str)
  | .downloadAsset f => fs ++ [scratchDir ctx ++ [f]]
  | .writeBody => fs ++ [scratchDir ctx ++ [ctx.prefixName ++ ".txt".toList]]
  | .copyToParent => fs ++ [stagedPath ctx]
  | .renameFinal => (fs.filter (fun p => p != stagedPath ctx)) ++ [finalPath ctx]

/-- Run the publish steps, each paired with whether its underlying I/O
succeeds.  A failed asset download is skipped and execution continues,
because `download_post` collects the download results into a `Vec` and
discards them (src/downloader.rs, lines 290-318); a failure of any other
step aborts (`?` on the body write, `unwrap` on copy and rename).  Returns
the final filesystem and whether the publish ran to completion. -/
def runPublish (ctx : PublishCtx) : List (List Str) → List (PubOp × Bool) → List (List Str) × Bool
  | fs, [] => (fs, true)
  | fs, (op, ok) :: rest =>
    if ok then runPublish ctx (applyPubOp ctx fs op) rest
    else
      match op with
      | .downloadAsset _ => runPublish ctx fs rest
      | _ => (fs, false)

/-- The step list of one publish: the asset downloads (each with its
success flag) followed by the body write, the copy, and the rename. -/
def publishOps (assets : List (Str × Bool)) (bodyOk copyOk renameOk : Bool) :
    List (PubOp × Bool) :=
  (assets.map (fun a => (PubOp.downloadAsset a.1, a.2))) ++
    [(PubOp.writeBody, bodyOk), (PubOp.copyToParent, copyOk), (PubOp.renameFinal, renameOk)]

/-- The pieces produced by splitting a `"; "`-joined list on `;` alone:
every piece after the first keeps the space of the separator. -/
def spaceTail : List Str → List Str
  | [] => []
  | x :: xs => x :: xs.map (fun y => ' ' :: y)

/-- A cookie pair the serialization format can faithfully carry: name and
value free of `;` and `=` and fixed by `trim`. -/
def cleanPair (kv : Str × Str) : Prop :=
  ';' ∉ kv.1 ∧ '=' ∉ kv.1 ∧ trimChars kv.1 = kv.1 ∧
    ';' ∉ kv.2 ∧ '=' ∉ kv.2 ∧ trimChars kv.2 = kv.2

instance instDecidableCleanPair (kv : Str × Str) : Decidable (cleanPair kv) := by
  unfold cleanPair
  infer_instance

/-!  Theorems.  General helper lemmas first, then one block per claim. -/

theorem utf8Len_append (a b : Str) : utf8Len (a ++ b) = utf8Len a + utf8Len b := by
  simp [utf8Len]

theorem utf8Len_cons (c : Char) (s : Str) : utf8Len (c :: s) = c.utf8Size + utf8Len s := by
  simp [utf8Len]

theorem trimChars_cons_space (s : Str) : trimChars (' ' :: s) = trimChars s := by
  simp [trimChars, List.dropWhile_cons]

theorem intercalate_nil_chunks (sep : Str) : List.intercalate sep ([] : List Str) = [] := rfl

theorem intercalate_single_chunk (sep x : Str) : List.intercalate sep [x] = x := by
  simp [List.intercalate]

theorem intercalate_cons₂ (sep x y : Str) (l : List Str) :
    List.intercalate sep (x :: y :: l) = x ++ sep ++ List.intercalate sep (y :: l) := by
  simp [List.intercalate, List.intersperse_cons_cons]

theorem splitOn_no_sep {s : Str} {c : Char} (h : c ∉ s) : s.splitOn c = [s] := by
  rw [List.splitOn]
  refine List.splitOnP_eq_single _ _ ?_
  intro x hx hbe
  exact h (by simpa using (beq_iff_eq.mp hbe ▸ hx))

theorem splitOn_append_cons {xs : Str} {c : Char} (h : c ∉ xs) (ys : Str) :
    (xs ++ c :: ys).splitOn c = xs :: ys.splitOn c := by
  rw [List.splitOn, List.splitOnP_first _ _ ?_ c (by simp), List.splitOn]
  intro x hx hbe
  exact h (by simpa using (beq_iff_eq.mp hbe ▸ hx))

theorem splitOn_cons_ne {s : Str} {a c : Char} (h : a ≠ c) :
    (a :: s).splitOn c = (s.splitOn c).modifyHead (a :: ·) := by
  rw [List.splitOn, List.splitOn, List.splitOnP_cons]
  simp [h]

theorem foldl_hashMapInsert (c : Credential) :
    ∀ acc : Credential, (((acc ++ c).map Prod.fst).Nodup) →
      c.foldl hashMapInsert acc = acc ++ c := by
  induction c with
  | nil => intro acc _; simp
  | cons kv rest ih =>
    intro acc hnd
    have hnotin : kv.1 ∉ acc.map Prod.fst := by
      intro hmem
      have := (List.nodup_append.mp (by simpa using hnd)).2.2
      exact this hmem (by simp)
    have hins : hashMapInsert acc kv = acc ++ [kv] := by
      rw [hashMapInsert, if_neg]
      simp only [List.any_eq_true, beq_iff_eq, not_exists, not_and]
      intro q hq hqe
      exact hnotin (by simpa [hqe] using List.mem_map_of_mem Prod.fst hq)
    rw [List.foldl_cons, hins, ih (acc ++ [kv]) (by simpa using hnd)]
    simp

theorem collectHashMap_eq_self (c : Credential) (h : (c.map Prod.fst).Nodup) :
    collectHashMap c = c := by
  simpa using foldl_hashMapInsert c [] (by simpa using h)

/-- Claim C1 (code bug): with original credential `TIARA=old` and refresh
response header `TIARA=new; Path=/`, the merge of `update_kakao_coookies`
returns the credential unchanged, because the key it looks up is the whole
`name=value` text of the header (never a bare cookie name, which cannot
contain `=`); the merge the specification describes replaces the value of
`TIARA` with `new`. -/
theorem c1_refresh_merge_divergence :
    update_kakao_coookies [("TIARA".toList, "old".toList)] ["TIARA=new; Path=/".toList]
        = [("TIARA".toList, "old".toList)] ∧
      refreshMergeSpec [("TIARA".toList, "old".toList)] ["TIARA=new; Path=/".toList]
        = [("TIARA".toList, "new".toList)] := by
  exact ⟨by rfl, by rfl⟩

/-- Claim C3: the `exceptionCode` classification of `download_board`: no
code is a success, the not-authenticated code aborts, the deleted code is
a soft miss, and any other (in particular any other nonempty) code is an
API error carrying the code. -/
theorem c3_exception_classification (e : Str) :
    classifyException none = .success ∧
      classifyException (some ("MCAFE_NOT_AUTHENTICATED".toList)) = .notAuthenticated ∧
      classifyException (some ("MCAFE_BBS_BULLETIN_READ_DELALREADY".toList)) = .softMiss ∧
      (e ≠ "MCAFE_NOT_AUTHENTICATED".toList →
        e ≠ "MCAFE_BBS_BULLETIN_READ_DELALREADY".toList →
        e ≠ [] → classifyException (some e) = .apiError e) := by
  refine ⟨rfl, by decide, by decide, ?_⟩
  intro h1 h2 _
  have hred : classifyException (some e) =
      (if e = "MCAFE_NOT_AUTHENTICATED".toList then .notAuthenticated
        else if e = "MCAFE_BBS_BULLETIN_READ_DELALREADY".toList then .softMiss
        else .apiError e) := rfl
  rw [hred, if_neg h1, if_neg h2]

/-- Witness for C3 at the concrete code `MCAFE_INTERNAL`. -/
theorem c3_exception_classification_witness :
    classifyException (some ("MCAFE_INTERNAL".toList)) =
      .apiError ("MCAFE_INTERNAL".toList) :=
  (c3_exception_classification ("MCAFE_INTERNAL".toList)).2.2.2
    (by decide) (by decide) (by decide)

/-- Claim C5: `get_first_id` is `1` for an absent directory and for an
empty directory, and `max + 1` whenever the ids extracted from field 3 of
the entry names have a maximum. -/
theorem c5_first_id :
    get_first_id none = 1 ∧ get_first_id (some []) = 1 ∧
      ∀ (entries : List Str) (m : Nat),
        (entries.filterMap extractEntryId).max? = some m →
        get_first_id (some entries) = m + 1 := by
  refine ⟨rfl, rfl, ?_⟩
  intro entries m h
  simp [get_first_id, h]

/-- Witness for C5: entries embedding the ids 3, 1, 4, 1, 5 yield 6. -/
theorem c5_first_id_witness :
    get_first_id (some ["20200101_c_b_3_t".toList, "20200101_c_b_1_t".toList,
      "20200101_c_b_4_t".toList, "20200101_c_b_0001_t".toList,
      "20200101_c_b_0005_t".toList]) = 6 :=
  c5_first_id.2.2 _ 5 (by decide)

theorem serialize_splitOn (x : Str) (chunks : List Str) (h : ∀ y ∈ x :: chunks, ';' ∉ y) :
    (List.intercalate [';', ' '] (x :: chunks)).splitOn ';' = spaceTail (x :: chunks) := by
  induction chunks generalizing x with
  | nil =>
    rw [intercalate_single_chunk, splitOn_no_sep (h x (by simp))]
    rfl
  | cons y l ih =>
    have hx : ';' ∉ x := h x (by simp)
    have hrest : ∀ z ∈ y :: l, ';' ∉ z := fun z hz => h z (by simp [hz])
    rw [intercalate_cons₂]
    have hassoc : x ++ [';', ' '] ++ List.intercalate [';', ' '] (y :: l)
        = x ++ ';' :: (' ' :: List.intercalate [';', ' '] (y :: l)) := by
      simp
    rw [hassoc, splitOn_append_cons hx]
    rw [splitOn_cons_ne (by decide), ih y hrest]
    cases l with
    | nil => rfl
    | cons z zs => rfl

theorem parse_chunk (k v : Str) (hk : '=' ∉ k) (hv : '=' ∉ v)
    (htk : trimChars k = k) (htv : trimChars v = v) :
    parseCookiePair (k ++ '=' :: v) = some (k, v) := by
  rw [parseCookiePair, splitOn_append_cons hk, splitOn_no_sep hv]
  show some (trimChars k, trimChars v) = some (k, v)
  rw [htk, htv]

theorem parse_chunk_spaced (k v : Str) (hk : '=' ∉ k) (hv : '=' ∉ v)
    (htk : trimChars k = k) (htv : trimChars v = v) :
    parseCookiePair (' ' :: (k ++ '=' :: v)) = some (k, v) := by
  have h1 : (' ' :: (k ++ '=' :: v)) = (' ' :: k) ++ '=' :: v := by simp
  have h2 : '=' ∉ (' ' :: k) := by
    intro hmem
    rcases List.mem_cons.mp hmem with h | h
    · exact absurd h.symm (by decide)
    · exact hk h
  rw [parseCookiePair, h1, splitOn_append_cons h2, splitOn_no_sep hv]
  show some (trimChars (' ' :: k), trimChars v) = some (k, v)
  rw [trimChars_cons_space, htk, htv]

theorem filterMap_spaced_chunks (rest : Credential) (hc : ∀ kv ∈ rest, cleanPair kv) :
    (((rest.map (fun kv => kv.1 ++ '=' :: kv.2)).map (fun y => ' ' :: y)).filterMap
      parseCookiePair) = rest := by
  induction rest with
  | nil => rfl
  | cons kv l ih =>
    obtain ⟨h1, h2, h3, h4, h5, h6⟩ := hc kv (by simp)
    simp only [List.map_cons, List.filterMap_cons, parse_chunk_spaced kv.1 kv.2 h2 h5 h3 h6]
    rw [ih (fun p hp => hc p (by simp [hp]))]

theorem deserialize_serialize_pairs (c : Credential) (hc : ∀ kv ∈ c, cleanPair kv) :
    ((serialize_cookies c).splitOn ';').filterMap parseCookiePair = c := by
  cases c with
  | nil => rfl
  | cons kv rest =>
    have hnos : ∀ y ∈ (kv :: rest).map (fun p => p.1 ++ '=' :: p.2), ';' ∉ y := by
      intro y hy hsemi
      obtain ⟨p, hp, rfl⟩ := List.mem_map.mp hy
      obtain ⟨g1, _, _, g4, _, _⟩ := hc p hp
      rcases List.mem_append.mp hsemi with h | h
      · exact g1 h
      · rcases List.mem_cons.mp h with h | h
        · exact absurd h (by decide)
        · exact g4 h
    obtain ⟨h1, h2, h3, h4, h5, h6⟩ := hc kv (by simp)
    have hsep : ("; ".toList : Str) = [';', ' '] := rfl
    rw [serialize_cookies, hsep, List.map_cons, serialize_splitOn _ _ (by simpa using hnos)]
    simp only [spaceTail, List.filterMap_cons, parse_chunk kv.1 kv.2 h2 h5 h3 h6]
    rw [filterMap_spaced_chunks rest (fun p hp => hc p (by simp [hp]))]

/-- Claim C2 (counterexample): the credential with the single pair
`k ↦ a=b` has unique names, but serializing and deserializing it truncates
the value at its `=`, so the round trip fails as stated. -/
theorem c2_roundtrip_counterexample :
    deserialize_cookies (serialize_cookies [("k".toList, "a=b".toList)])
      ≠ [("k".toList, "a=b".toList)] := by
  decide

/-- Claim C2 (amended): the round trip `deserialize (serialize c) = c`
holds for every credential with unique names whose names and values are
free of `;` and `=` and carry no surrounding whitespace. -/
theorem c2_roundtrip_amended (c : Credential) (hnd : (c.map Prod.fst).Nodup)
    (hc : ∀ kv ∈ c, cleanPair kv) :
    deserialize_cookies (serialize_cookies c) = c := by
  rw [deserialize_cookies, deserialize_serialize_pairs c hc, collectHashMap_eq_self c hnd]

/-- Witness for the amended C2 at a concrete two-cookie credential. -/
theorem c2_roundtrip_amended_witness :
    deserialize_cookies (serialize_cookies
        [("TIARA".toList, "abc".toList), ("_kadu".toList, "xyz".toList)])
      = [("TIARA".toList, "abc".toList), ("_kadu".toList, "xyz".toList)] :=
  c2_roundtrip_amended _ (by decide) (by decide)

theorem position_eq_some {β γ : Type} [BEq γ] [LawfulBEq γ] (f : β → γ) (t : γ) :
    ∀ (l : List β) (i : Nat) (x : β), (l.map f).Nodup → l[i]? = some x → f x = t →
      position (fun v => f v == t) l = some i := by
  intro l
  induction l with
  | nil => intro i x _ h _; simp at h
  | cons y ys ih =>
    intro i x hnd hget hfx
    have hnd2 : (∀ z ∈ ys, ¬f z = f y) ∧ (List.map f ys).Nodup := by simpa using hnd
    cases i with
    | zero =>
      have hxy : y = x := by simpa using hget
      subst hxy
      simp [position, hfx]
    | succ i =>
      have hget' : ys[i]? = some x := by simpa using hget
      have hxm : x ∈ ys := List.getElem?_mem hget'
      have hne : (f y == t) = false := by
        rw [beq_eq_false_iff_ne]
        intro hyt
        exact hnd2.1 x hxm (hfx.trans hyt.symm)
      simp [position, hne, ih i x hnd2.2 hget' hfx]

theorem position_eq_none {β : Type} (p : β → Bool) :
    ∀ l : List β, (∀ x ∈ l, p x = false) → position p l = none := by
  intro l
  induction l with
  | nil => intro _; rfl
  | cons y ys ih =>
    intro h
    simp [position, h y (by simp), ih (fun x hx => h x (by simp [hx]))]

theorem assignAux_length (il : Option (List Str)) (pfx : Str) :
    ∀ (files : List CafeFile) (a : Nat),
      (assignFilenamesAux il pfx a files).length = files.length := by
  intro files
  induction files with
  | nil => intro a; rfl
  | cons f rest ih =>
    intro a
    cases h : fileRealIdx il f with
    | some idx => simp [assignFilenamesAux, h, ih]
    | none => simp [assignFilenamesAux, h, ih]

theorem assignAux_getElem_img (il : Option (List Str)) (pfx : Str) :
    ∀ (files : List CafeFile) (a j : Nat) (f : CafeFile) (idx : Nat),
      files[j]? = some f → fileRealIdx il f = some idx →
      (assignFilenamesAux il pfx a files)[j]? =
        some (imgFilename pfx (idx + 1) f.filetype) := by
  intro files
  induction files with
  | nil => intro a j f idx h _; simp at h
  | cons f0 rest ih =>
    intro a j f idx hget hidx
    cases j with
    | zero =>
      have hf : f0 = f := by simpa using hget
      subst hf
      simp [assignFilenamesAux, hidx]
    | succ j =>
      have hget' : rest[j]? = some f := by simpa using hget
      cases h0 : fileRealIdx il f0 with
      | some idx0 => simpa [assignFilenamesAux, h0] using ih a j f idx hget' hidx
      | none => simpa [assignFilenamesAux, h0] using ih (a + 1) j f idx hget' hidx

theorem assignAux_getElem_attach (il : Option (List Str)) (pfx : Str) :
    ∀ (files : List CafeFile) (a j : Nat) (f : CafeFile),
      files[j]? = some f → fileRealIdx il f = none →
      (assignFilenamesAux il pfx a files)[j]? =
        some (attachFilename pfx (a + (files.take j).countP (isAttachFile il) + 1)
          f.filetype) := by
  intro files
  induction files with
  | nil => intro a j f h _; simp at h
  | cons f0 rest ih =>
    intro a j f hget hidx
    cases j with
    | zero =>
      have hf : f0 = f := by simpa using hget
      subst hf
      simp [assignFilenamesAux, hidx]
    | succ j =>
      have hget' : rest[j]? = some f := by simpa using hget
      cases h0 : fileRealIdx il f0 with
      | some idx0 =>
        have hc : ((f0 :: rest).take (j + 1)).countP (isAttachFile il)
            = (rest.take j).countP (isAttachFile il) := by
          simp [List.countP_cons, isAttachFile, h0]
        simp only [assignFilenamesAux, h0, List.getElem?_cons_succ, hc]
        exact ih a j f hget' hidx
      | none =>
        have hc : ((f0 :: rest).take (j + 1)).countP (isAttachFile il)
            = (rest.take j).countP (isAttachFile il) + 1 := by
          simp [List.countP_cons, isAttachFile, h0]
        simp only [assignFilenamesAux, h0, List.getElem?_cons_succ, hc]
        have harith : a + ((rest.take j).countP (isAttachFile il) + 1) + 1
            = a + 1 + (rest.take j).countP (isAttachFile il) + 1 := by omega
        rw [harith]
        exact ih (a + 1) j f hget' hidx

/-- Claim C4: in `download_post`, a file whose URL basename equals the
basename of the image-list entry at (0-based) position `i` (the basenames
of the image list being distinct, so that the matching position is the
first match the code takes) is named `…_img{i+1:03}.<ext>`, and a file
matching no image-list entry gets the next sequential attachment index
(one more than the number of non-matching files before it) with
`…_attach{idx:03}.<ext>`. -/
theorem c4_asset_naming (image_list : List Str) (pfx : Str) (files : List CafeFile)
    (j : Nat) (f : CafeFile) (hjf : files[j]? = some f) :
    (∀ (i : Nat) (u : Str), image_list[i]? = some u →
        (image_list.map get_url_basename).Nodup →
        get_url_basename u = get_url_basename f.downurl →
        (assignFilenames (some image_list) pfx files)[j]? =
          some (imgFilename pfx (i + 1) f.filetype)) ∧
      ((∀ u ∈ image_list, get_url_basename u ≠ get_url_basename f.downurl) →
        (assignFilenames (some image_list) pfx files)[j]? =
          some (attachFilename pfx
            ((files.take j).countP (isAttachFile (some image_list)) + 1) f.filetype)) := by
  constructor
  · intro i u hiu hnd hbase
    have hpos : fileRealIdx (some image_list) f = some i := by
      rw [fileRealIdx]
      exact position_eq_some get_url_basename (get_url_basename f.downurl)
        image_list i u hnd hiu hbase
    exact assignAux_getElem_img (some image_list) pfx files 0 j f i hjf hpos
  · intro hno
    have hpos : fileRealIdx (some image_list) f = none := by
      rw [fileRealIdx]
      refine position_eq_none _ image_list ?_
      intro u hu
      rw [beq_eq_false_iff_ne]
      exact hno u hu
    have h := assignAux_getElem_attach (some image_list) pfx files 0 j f hjf hpos
    simpa using h

/-- Witness for C4: the example of the claim, with images
`…/a.jpg, …/b.jpg` and files `…/b.jpg, …/c.jpg`: the first file is named
`img002` and the second `attach001`. -/
theorem c4_asset_naming_witness :
    (assignFilenames (some ["http://h/a.jpg".toList, "http://h/b.jpg".toList]) "P".toList
        [⟨"http://i/b.jpg".toList, "jpg".toList⟩, ⟨"http://i/c.jpg".toList, "jpg".toList⟩])[0]?
      = some ("P_img002.jpg".toList) ∧
    (assignFilenames (some ["http://h/a.jpg".toList, "http://h/b.jpg".toList]) "P".toList
        [⟨"http://i/b.jpg".toList, "jpg".toList⟩, ⟨"http://i/c.jpg".toList, "jpg".toList⟩])[1]?
      = some ("P_attach001.jpg".toList) := by
  constructor
  · exact ((c4_asset_naming ["http://h/a.jpg".toList, "http://h/b.jpg".toList] "P".toList
      [⟨"http://i/b.jpg".toList, "jpg".toList⟩, ⟨"http://i/c.jpg".toList, "jpg".toList⟩]
      0 ⟨"http://i/b.jpg".toList, "jpg".toList⟩ (by decide)).1 1 ("http://h/b.jpg".toList)
      (by decide) (by decide) (by decide)).trans (by decide)
  · exact ((c4_asset_naming ["http://h/a.jpg".toList, "http://h/b.jpg".toList] "P".toList
      [⟨"http://i/b.jpg".toList, "jpg".toList⟩, ⟨"http://i/c.jpg".toList, "jpg".toList⟩]
      1 ⟨"http://i/c.jpg".toList, "jpg".toList⟩ (by decide)).2 (by decide)).trans (by decide)

theorem runBatch_mem_iff (tasks : List (Str × Str)) (o : List Nat) (n : Nat)
    (hperm : o.Perm (List.range n)) (hlen : tasks.length = n) (j : Nat) (name : Str) :
    ((j, name) ∈ runBatch tasks o) ↔ ∃ t, tasks[j]? = some t ∧ name = t.1 := by
  rw [runBatch, List.mem_filterMap]
  constructor
  · rintro ⟨i, _, hsome⟩
    obtain ⟨t, ht, hpair⟩ := Option.map_eq_some'.mp hsome
    have hij : i = j := congrArg Prod.fst hpair
    have hname : t.1 = name := congrArg Prod.snd hpair
    subst hij
    exact ⟨t, ht, hname.symm⟩
  · rintro ⟨t, ht, rfl⟩
    refine ⟨j, ?_, by simp [ht]⟩
    have hj : j < tasks.length := by
      have := List.getElem?_eq_some_iff.mp ht
      exact this.1
    exact (hperm.mem_iff).mpr (List.mem_range.mpr (hlen ▸ hj))

/-- Claim C7: the filename each asset receives is fixed by the post's
image list and file list (and the prefix) at dispatch time; any two
completion orders of the bounded-concurrency batch produce exactly the
same (task index, filename) associations. -/
theorem c7_deterministic_naming (image_list : Option (List Str)) (pfx : Str)
    (files : List CafeFile) (o1 o2 : List Nat)
    (h1 : o1.Perm (List.range files.length)) (h2 : o2.Perm (List.range files.length))
    (j : Nat) (name : Str) :
    ((j, name) ∈ runBatch (assetTasks image_list pfx files) o1) ↔
      ((j, name) ∈ runBatch (assetTasks image_list pfx files) o2) := by
  have hlen : (assetTasks image_list pfx files).length = files.length := by
    simp [assetTasks, assignFilenames, assignAux_length]
  rw [runBatch_mem_iff _ _ _ h1 hlen, runBatch_mem_iff _ _ _ h2 hlen]

/-- Witness for C7: with two files and reversed completion order, asset 0
still receives its dispatch-time name `P_img002.jpg`. -/
theorem c7_deterministic_naming_witness :
    (0, "P_img002.jpg".toList) ∈ runBatch
      (assetTasks (some ["http://h/a.jpg".toList, "http://h/b.jpg".toList]) "P".toList
        [⟨"http://i/b.jpg".toList, "jpg".toList⟩, ⟨"http://i/c.jpg".toList, "jpg".toList⟩])
      [1, 0] :=
  (c7_deterministic_naming _ _ _ [0, 1] [1, 0] (by decide) (by decide) 0 _).mp (by decide)

theorem truncAux_spec (max_length : Nat) :
    ∀ (gs : List Str) (out : Str), utf8Len out ≤ max_length →
      ∃ k, k ≤ gs.length ∧
        truncAux max_length out gs = out ++ (gs.take k).flatten ∧
        utf8Len (out ++ (gs.take k).flatten) ≤ max_length ∧
        ∀ m, m ≤ gs.length → utf8Len (out ++ (gs.take m).flatten) ≤ max_length → m ≤ k := by
  intro gs
  induction gs with
  | nil =>
    intro out hout
    exact ⟨0, by simp, by simp [truncAux], by simpa using hout, fun m hm _ => hm⟩
  | cons g rest ih =>
    intro out hout
    by_cases h : max_length < utf8Len out + utf8Len g
    · refine ⟨0, by simp, by simp [truncAux, h], by simpa using hout, ?_⟩
      intro m hm hlen
      cases m with
      | zero => exact Nat.le_refl 0
      | succ m =>
        exfalso
        rw [List.take_succ_cons, List.flatten_cons, ← List.append_assoc,
          utf8Len_append, utf8Len_append] at hlen
        omega
    · push_neg at h
      obtain ⟨k, hk, heq, hle, hmax⟩ := ih (out ++ g) (by rwa [utf8Len_append])
      refine ⟨k + 1, Nat.succ_le_succ hk, ?_, ?_, ?_⟩
      · rw [truncAux, if_neg (by omega), heq, List.take_succ_cons, List.flatten_cons,
          List.append_assoc]
      · rwa [List.take_succ_cons, List.flatten_cons, ← List.append_assoc]
      · intro m hm hlen
        cases m with
        | zero => exact Nat.zero_le _
        | succ m =>
          rw [List.take_succ_cons, List.flatten_cons, ← List.append_assoc] at hlen
          exact Nat.succ_le_succ (hmax m (by simpa using hm) hlen)

/-- Claim C9 (counterexample): a title of sixty single-character graphemes
of three UTF-8 bytes each has at most 100 graphemes, so the claim keeps all
of it, but `truncate_str_to_length` cuts at 100 bytes and keeps only the
first 33 graphemes. -/
theorem c9_truncation_counterexample :
    (List.replicate 60 ['한']).length ≤ 100 ∧
      truncate_str_to_length (List.replicate 60 ['한']) 100
        ≠ (List.replicate 60 ['한']).flatten := by
  constructor
  · decide
  · decide

/-- Claim C9 (amended): the title component is the longest prefix of whole
grapheme clusters whose total UTF-8 byte length fits in the limit: the
result is the concatenation of the first `k` graphemes for a `k` that is
maximal among byte-lengths within the limit. -/
theorem c9_truncation_amended (gs : List Str) (max_length : Nat) :
    ∃ k, k ≤ gs.length ∧
      truncate_str_to_length gs max_length = (gs.take k).flatten ∧
      utf8Len ((gs.take k).flatten) ≤ max_length ∧
      ∀ m, m ≤ gs.length → utf8Len ((gs.take m).flatten) ≤ max_length → m ≤ k := by
  obtain ⟨k, hk, heq, hle, hmax⟩ := truncAux_spec max_length gs [] (Nat.zero_le _)
  exact ⟨k, hk, by simpa [truncate_str_to_length] using heq, by simpa using hle,
    fun m hm hlen => hmax m hm (by simpa using hlen)⟩

/-- Witness for the amended C9: a single one-byte grapheme is kept whole. -/
theorem c9_truncation_amended_witness :
    truncate_str_to_length [['a']] 100 = ['a'] := by
  obtain ⟨k, hk, heq, hle, hmax⟩ := c9_truncation_amended [['a']] 100
  have h1 : 1 ≤ k := hmax 1 (by decide) (by decide)
  have h2 : k = 1 := Nat.le_antisymm (by simpa using hk) h1
  rw [heq, h2]
  rfl

theorem utf8Len_take_le (s : Str) (k : Nat) : utf8Len (s.take k) ≤ utf8Len s := by
  conv_rhs => rw [← List.take_append_drop k s]
  rw [utf8Len_append]
  omega

theorem isSome_option_map {α β : Type} (g : α → β) (o : Option α) :
    (Option.map g o).isSome = o.isSome := by
  cases o <;> rfl

theorem takeBytes_isSome_iff :
    ∀ (s : Str) (n : Nat), (takeBytes n s).isSome ↔ ∃ k, utf8Len (s.take k) = n := by
  intro s
  induction s with
  | nil =>
    intro n
    cases n with
    | zero =>
      simp only [takeBytes, Option.isSome_some, true_iff]
      exact ⟨0, by simp [utf8Len]⟩
    | succ n =>
      simp only [takeBytes, Option.isSome_none, List.take_nil]
      constructor
      · intro h; cases h
      · rintro ⟨k, hk⟩
        simp [utf8Len] at hk
  | cons c cs ih =>
    intro n
    cases n with
    | zero =>
      simp only [takeBytes, Option.isSome_some, true_iff]
      exact ⟨0, by simp [utf8Len]⟩
    | succ n =>
      rw [takeBytes]
      by_cases h : c.utf8Size ≤ n + 1
      · rw [if_pos h]
        rw [isSome_option_map]
        rw [ih (n + 1 - c.utf8Size)]
        constructor
        · rintro ⟨k, hk⟩
          refine ⟨k + 1, ?_⟩
          rw [List.take_succ_cons, utf8Len_cons, hk]
          omega
        · rintro ⟨k, hk⟩
          cases k with
          | zero => simp [utf8Len] at hk
          | succ k =>
            rw [List.take_succ_cons, utf8Len_cons] at hk
            exact ⟨k, by omega⟩
      · rw [if_neg h]
        simp only [Option.isSome_none]
        constructor
        · intro hfalse; cases hfalse
        · rintro ⟨k, hk⟩
          cases k with
          | zero => simp [utf8Len] at hk
          | succ k =>
            rw [List.take_succ_cons, utf8Len_cons] at hk
            omega

/-- Claim C10: the archive-entry prefix of `download_board` slices the
first 8 bytes of the response date with no guard, so it is defined exactly
when the date has a character boundary at byte 8 (some character prefix
occupies exactly 8 bytes); in particular a date shorter than 8 bytes gives
no result at all (the slice panics) rather than an error value. -/
theorem c10_date_slice_precondition (date : Str) (nameGraphemes : List Str)
    (cafe_name cafe_board : Str) (id : Nat) :
    (utf8Len date < 8 →
        buildEntryPrefix date nameGraphemes cafe_name cafe_board id = none) ∧
      ((buildEntryPrefix date nameGraphemes cafe_name cafe_board id).isSome ↔
        ∃ k, utf8Len (date.take k) = 8) := by
  have hsome : (buildEntryPrefix date nameGraphemes cafe_name cafe_board id).isSome
      ↔ (takeBytes 8 date).isSome := by
    rw [buildEntryPrefix, isSome_option_map]
  constructor
  · intro hshort
    cases htb : takeBytes 8 date with
    | some d8 =>
      exfalso
      obtain ⟨k, hk⟩ := (takeBytes_isSome_iff date 8).mp (by simp [htb])
      have := utf8Len_take_le date k
      omega
    | none => simp [buildEntryPrefix, htb]
  · rw [hsome, takeBytes_isSome_iff]

/-- Witness for C10: a four-byte date gives no prefix, and an eight-byte
date gives one. -/
theorem c10_date_slice_precondition_witness :
    buildEntryPrefix "2020".toList [['t']] "c".toList "b".toList 12 = none :=
  (c10_date_slice_precondition "2020".toList [['t']] "c".toList "b".toList 12).1 (by decide)

theorem append_singleton_inj {γ : Type} {a b : List γ} {x y : γ} :
    a ++ [x] = b ++ [y] ↔ a = b ∧ x = y := by
  constructor
  · intro h
    have h2 := congrArg List.reverse h
    simp only [List.reverse_append, List.reverse_singleton, List.singleton_append,
      List.cons.injEq, List.reverse_inj] at h2
    exact ⟨h2.2, h2.1⟩
  · rintro ⟨rfl, rfl⟩
    rfl

theorem scratch_file_ne_final (ctx : PublishCtx) (hpar : ctx.parent ≠ scratchDir ctx)
    (f : Str) : scratchDir ctx ++ [f] ≠ finalPath ctx := by
  intro h
  rw [finalPath] at h
  exact hpar ((append_singleton_inj.mp h).1.symm)

theorem staged_ne_final (ctx : PublishCtx) (htmp : ctx.tmpname ≠ ctx.prefixName) :
    stagedPath ctx ≠ finalPath ctx := by
  intro h
  rw [stagedPath, finalPath] at h
  exact htmp (append_singleton_inj.mp h).2

theorem runPublish_tail_cases (ctx : PublishCtx) (fs : List (List Str))
    (htmp : ctx.tmpname ≠ ctx.prefixName) (hpar : ctx.parent ≠ scratchDir ctx)
    (hfinal : finalPath ctx ∉ fs) (bodyOk copyOk renameOk : Bool) :
    (∀ fs', runPublish ctx fs [(PubOp.writeBody, bodyOk), (PubOp.copyToParent, copyOk),
        (PubOp.renameFinal, renameOk)] = (fs', false) → finalPath ctx ∉ fs') ∧
    (∀ fs', runPublish ctx fs [(PubOp.writeBody, bodyOk), (PubOp.copyToParent, copyOk),
        (PubOp.renameFinal, renameOk)] = (fs', true) →
        fs'.count (finalPath ctx) = 1) := by
  have hbody : finalPath ctx ∉ applyPubOp ctx fs PubOp.writeBody := by
    simp only [applyPubOp, List.mem_append, List.mem_singleton]
    rintro (h | h)
    · exact hfinal h
    · exact scratch_file_ne_final ctx hpar _ h.symm
  have hcopy : finalPath ctx ∉ applyPubOp ctx (applyPubOp ctx fs PubOp.writeBody)
      PubOp.copyToParent := by
    simp only [applyPubOp, List.mem_append, List.mem_singleton]
    rintro (h | h)
    · exact hbody (by simpa [applyPubOp] using h)
    · exact staged_ne_final ctx htmp h.symm
  cases bodyOk with
  | false =>
    refine ⟨?_, ?_⟩
    · intro fs' h
      have h2 : fs = fs' := by simpa [runPublish] using h
      exact h2 ▸ hfinal
    · intro fs' h
      simp [runPublish] at h
  | true =>
    cases copyOk with
    | false =>
      refine ⟨?_, ?_⟩
      · intro fs' h
        have h2 : applyPubOp ctx fs PubOp.writeBody = fs' := by
          simpa [runPublish] using h
        exact h2 ▸ hbody
      · intro fs' h
        simp [runPublish] at h
    | true =>
      cases renameOk with
      | false =>
        refine ⟨?_, ?_⟩
        · intro fs' h
          have h2 : applyPubOp ctx (applyPubOp ctx fs PubOp.writeBody) PubOp.copyToParent
              = fs' := by simpa [runPublish] using h
          exact h2 ▸ hcopy
        · intro fs' h
          simp [runPublish] at h
      | true =>
        refine ⟨?_, ?_⟩
        · intro fs' h
          simp [runPublish] at h
        · intro fs' h
          have hfs' : applyPubOp ctx (applyPubOp ctx (applyPubOp ctx fs PubOp.writeBody)
              PubOp.copyToParent) PubOp.renameFinal = fs' := by
            simpa [runPublish] using h
          rw [← hfs']
          show ((applyPubOp ctx (applyPubOp ctx fs PubOp.writeBody)
            PubOp.copyToParent).filter (fun p => p != stagedPath ctx)
              ++ [finalPath ctx]).count (finalPath ctx) = 1
          rw [List.count_append]
          have hnot : finalPath ctx ∉ (applyPubOp ctx (applyPubOp ctx fs PubOp.writeBody)
              PubOp.copyToParent).filter (fun p => p != stagedPath ctx) := by
            intro hmem
            exact hcopy (List.mem_of_mem_filter hmem)
          rw [List.count_eq_zero.mpr hnot]
          simp

theorem runPublish_spec (ctx : PublishCtx)
    (htmp : ctx.tmpname ≠ ctx.prefixName) (hpar : ctx.parent ≠ scratchDir ctx) :
    ∀ (assets : List (Str × Bool)) (fs : List (List Str)), finalPath ctx ∉ fs →
      ∀ bodyOk copyOk renameOk : Bool,
      (∀ fs', runPublish ctx fs (publishOps assets bodyOk copyOk renameOk) = (fs', false) →
        finalPath ctx ∉ fs') ∧
      (∀ fs', runPublish ctx fs (publishOps assets bodyOk copyOk renameOk) = (fs', true) →
        fs'.count (finalPath ctx) = 1) := by
  intro assets
  induction assets with
  | nil =>
    intro fs hfinal bodyOk copyOk renameOk
    exact runPublish_tail_cases ctx fs htmp hpar hfinal bodyOk copyOk renameOk
  | cons a rest ih =>
    intro fs hfinal bodyOk copyOk renameOk
    have hops : publishOps (a :: rest) bodyOk copyOk renameOk
        = (PubOp.downloadAsset a.1, a.2) :: publishOps rest bodyOk copyOk renameOk := by
      simp [publishOps]
    rw [hops]
    cases ha : a.2 with
    | true =>
      have hfs2 : finalPath ctx ∉ applyPubOp ctx fs (PubOp.downloadAsset a.1) := by
        simp only [applyPubOp, List.mem_append, List.mem_singleton]
        rintro (h | h)
        · exact hfinal h
        · exact scratch_file_ne_final ctx hpar _ h.symm
      have hrun : runPublish ctx fs ((PubOp.downloadAsset a.1, true)
          :: publishOps rest bodyOk copyOk renameOk)
          = runPublish ctx (applyPubOp ctx fs (PubOp.downloadAsset a.1))
            (publishOps rest bodyOk copyOk renameOk) := by
        simp [runPublish]
      rw [hrun]
      exact ih (applyPubOp ctx fs (PubOp.downloadAsset a.1)) hfs2 bodyOk copyOk renameOk
    | false =>
      have hrun : runPublish ctx fs ((PubOp.downloadAsset a.1, false)
          :: publishOps rest bodyOk copyOk renameOk)
          = runPublish ctx fs (publishOps rest bodyOk copyOk renameOk) := by
        simp [runPublish]
      rw [hrun]
      exact ih fs hfinal bodyOk copyOk renameOk

/-- Claim C6 (counterexample): on an initially empty filesystem, a publish
whose single asset download fails but whose remaining steps succeed runs to
completion (the download errors are collected into a `Vec` and discarded),
so a failure during staging does leave an entry at the final path. -/
theorem c6_publish_counterexample :
    (runPublish ⟨["tmp".toList], "t1".toList, ["cafe".toList, "g".toList, "bd".toList],
        "p".toList⟩ []
      (publishOps [("a.jpg".toList, false)] true true true)).2 = true ∧
    finalPath ⟨["tmp".toList], "t1".toList, ["cafe".toList, "g".toList, "bd".toList],
        "p".toList⟩ ∈
      (runPublish ⟨["tmp".toList], "t1".toList, ["cafe".toList, "g".toList, "bd".toList],
          "p".toList⟩ []
        (publishOps [("a.jpg".toList, false)] true true true)).1 := by
  constructor
  · rfl
  · decide

/-- Claim C6 (amended): a failure of the body write, of the copy into the
destination's parent, or of the rename aborts the publish and leaves no
entry at the final target path; asset-download failures do not abort (their
errors are discarded), and a publish that runs to completion leaves exactly
one entry at the final path carrying the deterministic prefix name. -/
theorem c6_publish_amended (ctx : PublishCtx) (fs : List (List Str))
    (htmp : ctx.tmpname ≠ ctx.prefixName) (hpar : ctx.parent ≠ scratchDir ctx)
    (hfinal : finalPath ctx ∉ fs)
    (assets : List (Str × Bool)) (bodyOk copyOk renameOk : Bool) :
    (∀ fs', runPublish ctx fs (publishOps assets bodyOk copyOk renameOk) = (fs', false) →
        finalPath ctx ∉ fs') ∧
      (∀ fs', runPublish ctx fs (publishOps assets bodyOk copyOk renameOk) = (fs', true) →
        fs'.count (finalPath ctx) = 1) :=
  runPublish_spec ctx htmp hpar assets fs hfinal bodyOk copyOk renameOk

/-- Witness for the amended C6: a concrete completed publish (with a failed
asset download on the way) leaves exactly one entry at the final path. -/
theorem c6_publish_amended_witness :
    ((runPublish ⟨["tmp".toList], "t1".toList, ["cafe".toList, "g".toList, "bd".toList],
        "p".toList⟩ []
      (publishOps [("a.jpg".toList, false), ("b.jpg".toList, true)] true true true)).1.count
        (finalPath ⟨["tmp".toList], "t1".toList,
          ["cafe".toList, "g".toList, "bd".toList], "p".toList⟩)) = 1 :=
  (c6_publish_amended ⟨["tmp".toList], "t1".toList,
      ["cafe".toList, "g".toList, "bd".toList], "p".toList⟩ []
    (by decide) (by decide) (by decide)
    [("a.jpg".toList, false), ("b.jpg".toList, true)] true true true).2 _ (by decide)

theorem notMem_intercalate {c : Char} {sep : Str} (hc : c ∉ sep) :
    ∀ l : List Str, (∀ x ∈ l, c ∉ x) → c ∉ List.intercalate sep l := by
  intro l
  induction l with
  | nil => intro _; simp [intercalate_nil_chunks]
  | cons x xs ih =>
    intro h
    cases xs with
    | nil =>
      rw [intercalate_single_chunk]
      exact h x (by simp)
    | cons y ys =>
      rw [intercalate_cons₂]
      intro hmem
      rcases List.mem_append.mp hmem with h1 | h1
      · rcases List.mem_append.mp h1 with h2 | h2
        · exact h x (by simp) h2
        · exact hc h2
      · exact ih (fun z hz => h z (by simp [hz])) h1

theorem renderRow_splitOn (r : NetscapeRow) (hwf : wfRow r) :
    (renderRow r).splitOn '\t'
      = [r.domain, r.flag, r.path, r.secure, r.expiry, r.name, r.value] := by
  obtain ⟨h1, h2, h3, h4, h5, h6, h7⟩ := hwf
  rw [renderRow]
  refine List.splitOn_intercalate _ '\t' ?_ (by simp)
  intro l hl
  simp only [List.mem_cons, List.not_mem_nil, or_false] at hl
  rcases hl with rfl | rfl | rfl | rfl | rfl | rfl | rfl
  exacts [h1.2.1, h2.2.1, h3.2.1, h4.2.1, h5.2.1, h6.2.1, h7.2.1]

theorem cookieLineMatch_render_pos (r : NetscapeRow) (hwf : wfRow r)
    (hdom : r.domain = ".kakao.com".toList) :
    cookieLineMatch (renderRow r) = some (r.name, r.value) := by
  obtain ⟨h1, h2, h3, h4, h5, h6, h7⟩ := hwf
  unfold cookieLineMatch
  rw [renderRow_splitOn r ⟨h1, h2, h3, h4, h5, h6, h7⟩]
  exact if_pos ⟨hdom, h2.1, h3.1, h4.1, h5.1, h6.1, h7.1⟩

theorem cookieLineMatch_render_neg (r : NetscapeRow) (hwf : wfRow r)
    (hdom : r.domain ≠ ".kakao.com".toList) :
    cookieLineMatch (renderRow r) = none := by
  unfold cookieLineMatch
  rw [renderRow_splitOn r hwf]
  exact if_neg (fun hcontra => hdom hcontra.1)

theorem filterMap_cookieRows (rows : List NetscapeRow) (hwf : ∀ r ∈ rows, wfRow r) :
    (rows.map renderRow).filterMap cookieLineMatch
      = (rows.filter (fun r => r.domain == ".kakao.com".toList)).map
          (fun r => (r.name, r.value)) := by
  induction rows with
  | nil => rfl
  | cons r rest ih =>
    have hr := hwf r (by simp)
    have ihr := ih (fun x hx => hwf x (by simp [hx]))
    by_cases hdom : r.domain = ".kakao.com".toList
    · have hd2 : (r.domain == ".kakao.com".toList) = true := by
        rw [beq_iff_eq]
        exact hdom
      rw [List.map_cons, List.filterMap_cons, cookieLineMatch_render_pos r hr hdom,
        List.filter_cons, if_pos hd2, List.map_cons, ihr]
    · have hd2 : (r.domain == ".kakao.com".toList) = false := by
        rw [beq_eq_false_iff_ne]
        exact hdom
      rw [List.map_cons, List.filterMap_cons, cookieLineMatch_render_neg r hr hdom,
        List.filter_cons, if_neg (by rw [hd2]; exact Bool.false_ne_true), ihr]

/-- Claim C8 (counterexample): a well-formed Netscape row whose domain
field `accounts.kakao.com` has the target domain `.kakao.com` as a proper
suffix is rejected by the anchored, literal regex of `read_cookies_file`:
the resulting credential is empty instead of containing `NAME=VALUE`. -/
theorem c8_domain_filter_counterexample :
    wfRow ⟨"accounts.kakao.com".toList, "TRUE".toList, "/".toList,
        "FALSE".toList, "0".toList, "NAME".toList, "VALUE".toList⟩ ∧
      List.isSuffixOf (".kakao.com".toList) ("accounts.kakao.com".toList) = true ∧
      read_cookies_file (renderRow ⟨"accounts.kakao.com".toList, "TRUE".toList, "/".toList,
        "FALSE".toList, "0".toList, "NAME".toList, "VALUE".toList⟩) = [] := by
  refine ⟨by decide, by decide, by decide⟩

/-- Claim C8 (amended): for well-formed Netscape rows, `read_cookies_file`
produces exactly the `name=value` pairs of the rows whose domain field is
literally `.kakao.com`, in file order (joined with `"; "`); when no row
matches, the credential is the empty string rather than an error. -/
theorem c8_domain_filter_amended (rows : List NetscapeRow) (hwf : ∀ r ∈ rows, wfRow r) :
    read_cookies_file (List.intercalate ['\n'] (rows.map renderRow))
      = List.intercalate ("; ".toList)
          ((rows.filter (fun r => r.domain == ".kakao.com".toList)).map
            (fun r => r.name ++ '=' :: r.value)) := by
  cases rows with
  | nil => rfl
  | cons r rest =>
    have hlines : ∀ l ∈ (r :: rest).map renderRow, '\n' ∉ l := by
      intro l hl
      obtain ⟨q, hq, rfl⟩ := List.mem_map.mp hl
      obtain ⟨g1, g2, g3, g4, g5, g6, g7⟩ := hwf q hq
      refine notMem_intercalate (by decide) _ ?_
      intro x hx
      simp only [List.mem_cons, List.not_mem_nil, or_false] at hx
      rcases hx with rfl | rfl | rfl | rfl | rfl | rfl | rfl
      exacts [g1.2.2, g2.2.2, g3.2.2, g4.2.2, g5.2.2, g6.2.2, g7.2.2]
    rw [read_cookies_file, List.splitOn_intercalate _ '\n' hlines (by simp),
      filterMap_cookieRows _ hwf, List.map_map]
    rfl

/-- Witness for the amended C8: three rows, of which the first and third
match the domain, give exactly `N1=V1; N3=V3` in file order. -/
theorem c8_domain_filter_amended_witness :
    read_cookies_file (List.intercalate ['\n'] (List.map renderRow
        [⟨".kakao.com".toList, "TRUE".toList, "/".toList, "FALSE".toList, "0".toList,
            "N1".toList, "V1".toList⟩,
          ⟨"other.com".toList, "TRUE".toList, "/".toList, "FALSE".toList, "0".toList,
            "N2".toList, "V2".toList⟩,
          ⟨".kakao.com".toList, "TRUE".toList, "/".toList, "FALSE".toList, "0".toList,
            "N3".toList, "V3".toList⟩]))
      = "N1=V1; N3=V3".toList :=
  (c8_domain_filter_amended _ (by decide)).trans (by decide)

end DaumCafe
